import Mathlib

/-!
# Verification of the plot-oxide statistics / downsampling / caching core

Shallow embedding of the statistics engine, the LTTB downsampler, the
adaptive downsampler state machine and the zoom-quantized LTTB cache of
the plot-oxide repository, together with proofs settling the frozen
claims about them.

`f64` values are modelled as exact rationals (`ℚ`): every claim under
consideration is about structural / exact-arithmetic behaviour (guards,
endpoints, counts, state transitions, bucket indices), not about
floating-point rounding.  Where the source takes a square root or a
base-2 logarithm (both irrational-valued), the embedding keeps the
rational quantity (variance, squared width) and the accompanying
theorems apply `Real.sqrt` / `Real.logb` at the statement level, with
bridging lemmas showing the embedded form agrees with the source's
formula.
-/

namespace PlotOxide

/-! ## Statistics engine (src/app.rs, src/data/stats.rs) -/

/-- Embedding of `PlotOxide::calculate_statistics` (src/app.rs:393-405) with the final
square root left un-applied: the source returns `(mean, variance.sqrt())`
where `variance` is the population variance (division by `N`); since the
square root is irrational we expose `(mean, variance)` and theorems apply
`Real.sqrt` to the second component.  Empty input returns `(0, 0)`. -/
def calculate_statistics_var (values : List ℚ) : ℚ × ℚ :=
  match values with
  | [] => (0, 0)
  | _ :: _ =>
    let mean := values.sum / (values.length : ℚ)
    let variance := (values.map (fun v => (v - mean) ^ 2)).sum / (values.length : ℚ)
    (mean, variance)

/-- The population mean as the spec words it: the sum divided by `N`
(`0` for empty input). -/
def popMean (values : List ℚ) : ℚ :=
  if values.length = 0 then 0 else values.sum / (values.length : ℚ)

/-- The population variance as the spec words it: the mean squared
deviation from the population mean, dividing by `N`, not `N - 1`
(`0` for empty input). -/
def popVariance (values : List ℚ) : ℚ :=
  if values.length = 0 then 0
  else (values.map (fun v => (v - popMean values) ^ 2)).sum / (values.length : ℚ)

/-- The standard-deviation branch of `calculate_stats`
(src/data/stats.rs:28-54), squared: the source calls polars
`chunked.std(1)` — the *sample* standard deviation (`ddof = 1`), i.e.
`sqrt (Σ (x - mean)² / (n - 1))` — and substitutes `0.0` when polars
cannot compute it (`n ≤ 1`).  We expose the sample variance; the source
value is its square root. -/
def calculate_stats_sampleVar (values : List ℚ) : ℚ :=
  if values.length ≤ 1 then 0
  else
    let mean := values.sum / (values.length : ℚ)
    (values.map (fun v => (v - mean) ^ 2)).sum / ((values.length : ℚ) - 1)

theorem calculate_statistics_var_eq (values : List ℚ) :
    calculate_statistics_var values = (popMean values, popVariance values) := by
  cases values with
  | nil => rfl
  | cons v rest =>
    simp [calculate_statistics_var, popMean, popVariance]

/-- C1 (amended). `calculate_statistics` in src/app.rs returns the population
mean and the population standard deviation (variance divided by `N`): for any
non-empty input it computes `(popMean, popVariance)` (the standard deviation
being the square root of the latter), for `[1,2,3,4,5]` it gives mean `3` and
variance `2` with `√2` within `10⁻³` of `1.4142`, and for `[]` it gives
`(0, 0)`.  However `calculate_stats` in src/data/stats.rs computes the
*sample* standard deviation (`ddof = 1`): on `[1,2,3,4,5]` its variance is
`5/2`, whose square root exceeds `3/2` and hence is not approximately
`1.4142`. -/
theorem C1_mean_stddev_population (values : List ℚ) (hne : values ≠ []) :
    calculate_statistics_var values = (popMean values, popVariance values) ∧
    calculate_statistics_var ([] : List ℚ) = (0, 0) ∧
    calculate_statistics_var [1, 2, 3, 4, 5] = (3, 2) ∧
    |Real.sqrt (((calculate_statistics_var [1, 2, 3, 4, 5]).2 : ℝ)) - 1.4142| < 1 / 1000 ∧
    calculate_stats_sampleVar [1, 2, 3, 4, 5] = 5 / 2 ∧
    3 / 2 < Real.sqrt ((calculate_stats_sampleVar [1, 2, 3, 4, 5] : ℝ)) := by
  refine ⟨calculate_statistics_var_eq values, rfl,
    by norm_num [calculate_statistics_var], ?_,
    by norm_num [calculate_stats_sampleVar], ?_⟩
  · have h2 : ((calculate_statistics_var [1, 2, 3, 4, 5]).2 : ℝ) = 2 := by
      norm_num [calculate_statistics_var]
    rw [h2, abs_sub_lt_iff]
    constructor
    · have : Real.sqrt 2 < 1.4152 := by
        rw [Real.sqrt_lt' (by norm_num)]
        norm_num
      linarith
    · have : (1.4142 : ℝ) < Real.sqrt 2 := by
        rw [Real.lt_sqrt (by norm_num)]
        norm_num
      linarith
  · have h52 : ((calculate_stats_sampleVar [1, 2, 3, 4, 5] : ℚ) : ℝ) = 5 / 2 := by
      norm_num [calculate_stats_sampleVar]
    rw [h52, Real.lt_sqrt (by norm_num)]
    norm_num

/-- C1 counterexample: the claim states that the mean/stddev computation
(which its sources identify with both `calculate_statistics` in src/app.rs
and `calculate_stats` in src/data/stats.rs) returns the *population*
standard deviation; on `[1,2,3,4,5]` the stats.rs variance is `5/2` while
the population variance is `2`, so the stats.rs standard deviation is
`√(5/2) ≈ 1.5811`, not `√2 ≈ 1.4142`. -/
theorem C1_counterexample_sample_stddev :
    calculate_stats_sampleVar [1, 2, 3, 4, 5] = 5 / 2 ∧
    popVariance [1, 2, 3, 4, 5] = 2 ∧ (5 / 2 : ℚ) ≠ (2 : ℚ) := by
  norm_num [calculate_stats_sampleVar, popVariance, popMean]

/-- C1 witness: the amended theorem applied at `[1,2,3,4,5]`. -/
theorem C1_witness :
    calculate_statistics_var [1, 2, 3, 4, 5] =
      (popMean [1, 2, 3, 4, 5], popVariance [1, 2, 3, 4, 5]) :=
  (C1_mean_stddev_population [1, 2, 3, 4, 5] (by decide)).1

/-! ## LTTB downsampling (src/app.rs, src/perf/downsample.rs, src/perf/worker.rs)

Points are pairs `(x, y) : ℚ × ℚ`; the source's `[f64; 2]` / `(f64, f64)`
representations are both modelled by the pair, so the element-wise
conversions between them in the source are the identity here.  Slice
indexing is modelled with `List.getD` (in-bounds in every reachable case,
since the bucket boundaries stay inside the data in exact arithmetic).
The per-bucket search loops are hoisted into named selection functions so
that the surrounding fold has a simple shape; their bodies mirror the
source loops verbatim. -/

/-- Inner loop of `PlotOxide::downsample_lttb` (src/app.rs:486-501): given
the previously selected anchor index `a` and the bucket number `i`, average
the next bucket and return the index in the current bucket maximizing the
triangle area with the anchor and that average.  `max_area` starts at `0.0`
and the comparison is strict, exactly as in the source. -/
def downsample_lttb_select (data : List (ℚ × ℚ)) (bucket_size : ℚ) (a i : ℕ) : ℕ :=
  let n := data.length
  let avg_range_start := ⌊((i : ℚ) + 1) * bucket_size⌋₊ + 1
  let avg_range_end := min (⌊((i : ℚ) + 2) * bucket_size⌋₊ + 1) n
  let avg_slice := (data.drop avg_range_start).take (avg_range_end - avg_range_start)
  let avg_x := (avg_slice.map Prod.fst).sum / ((avg_range_end - avg_range_start : ℕ) : ℚ)
  let avg_y := (avg_slice.map Prod.snd).sum / ((avg_range_end - avg_range_start : ℕ) : ℚ)
  let range_start := ⌊(i : ℚ) * bucket_size⌋₊ + 1
  let range_end := ⌊((i : ℚ) + 1) * bucket_size⌋₊ + 1
  let point_a := data.getD a (0, 0)
  let best := (List.range' range_start (range_end - range_start)).foldl
    (fun acc j =>
      let p := data.getD j (0, 0)
      let area := |(point_a.1 - avg_x) * (p.2 - point_a.2) -
        (point_a.1 - p.1) * (avg_y - point_a.2)|
      if acc.1 < area then (area, j) else acc)
    ((0 : ℚ), range_start)
  best.2

/-- Embedding of `PlotOxide::downsample_lttb` (src/app.rs:460-509).  Keeps
the first point, one selected point per interior bucket, and the last
point; returns the input unchanged when `data.len() <= threshold` or
`threshold < 3`. -/
def downsample_lttb (data : List (ℚ × ℚ)) (threshold : ℕ) : List (ℚ × ℚ) :=
  if data.length ≤ threshold ∨ threshold < 3 then data
  else
    let n := data.length
    let bucket_size : ℚ := ((n - 2 : ℕ) : ℚ) / ((threshold - 2 : ℕ) : ℚ)
    let looped := (List.range (threshold - 2)).foldl
      (fun st i =>
        (downsample_lttb_select data bucket_size st.1 i,
         st.2 ++ [data.getD (downsample_lttb_select data bucket_size st.1 i) (0, 0)]))
      (0, [data.getD 0 (0, 0)])
    looped.2 ++ [data.getD (n - 1) (0, 0)]

/-- Inner loop of `lttb_downsample` (src/perf/downsample.rs:87-121) and of
`BackgroundWorker::compute_lttb` (src/perf/worker.rs:130-167), which are
textually identical: bucket boundaries are offset by one bucket relative
to the app.rs variant, the current-bucket end is clamped to `n - 1`, the
next bucket may be empty (in which case the last data point is used as
the average), and `max_area` starts at `-1.0`. -/
def lttb_bucket_select (data : List (ℚ × ℚ)) (bucket_size : ℚ) (a i : ℕ) : ℕ :=
  let n := data.length
  let bucket_start := ⌊((i : ℚ) + 1) * bucket_size⌋₊ + 1
  let bucket_end := min (⌊((i : ℚ) + 2) * bucket_size⌋₊ + 1) (n - 1)
  let next_start := bucket_end
  let next_end := min (⌊((i : ℚ) + 3) * bucket_size⌋₊ + 1) n
  let avg :=
    if next_start < next_end then
      let slice := (data.drop next_start).take (next_end - next_start)
      ((slice.map Prod.fst).sum / ((next_end - next_start : ℕ) : ℚ),
       (slice.map Prod.snd).sum / ((next_end - next_start : ℕ) : ℚ))
    else data.getD (n - 1) (0, 0)
  let point_a := data.getD a (0, 0)
  let best := (List.range' bucket_start (bucket_end - bucket_start)).foldl
    (fun acc j =>
      let p := data.getD j (0, 0)
      let area := |(point_a.1 - avg.1) * (p.2 - point_a.2) -
        (point_a.1 - p.1) * (avg.2 - point_a.2)|
      if acc.1 < area then (area, j) else acc)
    ((-1 : ℚ), bucket_start)
  best.2

/-- Embedding of `lttb_downsample` (src/perf/downsample.rs:74-126).  Note
the only degenerate-case guard is `data.len() <= target`: there is no
`target < 3` guard.  (For `target < 2` with longer data the source's
`target - 2` underflows a `usize`, which panics in debug builds; the
claims are settled at `target = 2`, where the subtraction is `0` in both
the source and this model.) -/
def lttb_downsample (data : List (ℚ × ℚ)) (target : ℕ) : List (ℚ × ℚ) :=
  if data.length ≤ target then data
  else
    let n := data.length
    let bucket_size : ℚ := ((n - 2 : ℕ) : ℚ) / ((target - 2 : ℕ) : ℚ)
    let looped := (List.range (target - 2)).foldl
      (fun st i =>
        (lttb_bucket_select data bucket_size st.1 i,
         st.2 ++ [data.getD (lttb_bucket_select data bucket_size st.1 i) (0, 0)]))
      (0, [data.getD 0 (0, 0)])
    looped.2 ++ [data.getD (n - 1) (0, 0)]

/-- Embedding of `BackgroundWorker::compute_lttb` (src/perf/worker.rs:116-173),
whose body is textually identical to `lttb_downsample` in
src/perf/downsample.rs. -/
def compute_lttb (data : List (ℚ × ℚ)) (target : ℕ) : List (ℚ × ℚ) :=
  lttb_downsample data target

/-- Folding a step of the shape `st ↦ (g st.1 i, st.2 ++ [p st.1 i])`
only ever appends to the accumulated list. -/
theorem foldl_append_shape {β : Type} (g : ℕ → ℕ → ℕ) (p : ℕ → ℕ → β)
    (l : List ℕ) :
    ∀ (a : ℕ) (acc : List β),
      ∃ tl, (l.foldl (fun st i => (g st.1 i, st.2 ++ [p st.1 i])) (a, acc)).2 = acc ++ tl := by
  induction l with
  | nil => exact fun a acc => ⟨[], by simp⟩
  | cons x xs ih =>
    intro a acc
    obtain ⟨tl, htl⟩ := ih (g a x) (acc ++ [p a x])
    exact ⟨p a x :: tl, by simpa using htl⟩

theorem head?_eq_getD {α : Type} (data : List α) (d : α) (h : data ≠ []) :
    data.head? = some (data.getD 0 d) := by
  cases data with
  | nil => exact absurd rfl h
  | cons x xs => rfl

theorem getLast?_eq_getD {α : Type} (data : List α) (d : α) (h : data ≠ []) :
    data.getLast? = some (data.getD (data.length - 1) d) := by
  induction data with
  | nil => exact absurd rfl h
  | cons x xs ih =>
    cases xs with
    | nil => rfl
    | cons y ys =>
      rw [List.getLast?_cons_cons, ih (by simp)]
      simp [List.getD]

/-- C2 (amended). The app.rs `downsample_lttb` returns the input unchanged
whenever `N ≤ T` or `T < 3`; the perf-module `lttb_downsample` (and the
textually identical worker `compute_lttb`) return the input unchanged only
when `N ≤ T` — for `T < 3 ≤ N` they still reduce (for `T = 2`, to just the
two endpoints). -/
theorem C2_lttb_degenerate (data : List (ℚ × ℚ)) (threshold : ℕ)
    (h : data.length ≤ threshold ∨ threshold < 3) :
    downsample_lttb data threshold = data ∧
    (data.length ≤ threshold → lttb_downsample data threshold = data) := by
  constructor
  · rw [downsample_lttb, if_pos h]
  · intro hle
    rw [lttb_downsample, if_pos hle]

/-- C2 counterexample: the claim states that for `T < 3` the LTTB
downsampling (whose sources include `lttb_downsample` in
src/perf/downsample.rs) returns the input unchanged; but on five points
with target `2` that function returns only the two endpoints. -/
theorem C2_counterexample_target_two :
    lttb_downsample [(0, 0), (1, 1), (2, 2), (3, 3), (4, 4)] 2 ≠
      [(0, 0), (1, 1), (2, 2), (3, 3), (4, 4)] := by
  intro h
  have hlen := congrArg List.length h
  rw [lttb_downsample] at hlen
  simp at hlen

/-- C2 witness: the amended theorem applied to five points with target
`7 ≥ N` (input returned unchanged by both implementations). -/
theorem C2_witness :
    downsample_lttb [(0, 0), (1, 1), (2, 2), (3, 3), (4, 4)] 7 =
      [(0, 0), (1, 1), (2, 2), (3, 3), (4, 4)] ∧
    lttb_downsample [(0, 0), (1, 1), (2, 2), (3, 3), (4, 4)] 7 =
      [(0, 0), (1, 1), (2, 2), (3, 3), (4, 4)] := by
  have h := C2_lttb_degenerate [(0, 0), (1, 1), (2, 2), (3, 3), (4, 4)] 7
    (Or.inl (by decide))
  exact ⟨h.1, h.2 (by decide)⟩

/-- C4 (confirmed). For any input of length `N ≥ 3` and target `T` with
`3 ≤ T < N`, both the app.rs `downsample_lttb` and the worker
`compute_lttb` keep the first and last input points exactly as the first
and last output points. -/
theorem C4_lttb_endpoints (data : List (ℚ × ℚ)) (threshold : ℕ)
    (h3 : 3 ≤ threshold) (hlt : threshold < data.length) :
    (downsample_lttb data threshold).head? = data.head? ∧
    (downsample_lttb data threshold).getLast? = data.getLast? ∧
    (compute_lttb data threshold).head? = data.head? ∧
    (compute_lttb data threshold).getLast? = data.getLast? := by
  have hne : data ≠ [] := List.length_pos.mp (by omega)
  have hguard : ¬(data.length ≤ threshold ∨ threshold < 3) := by omega
  have hguard2 : ¬(data.length ≤ threshold) := by omega
  have happ : downsample_lttb data threshold =
      ((List.range (threshold - 2)).foldl
        (fun st i =>
          (downsample_lttb_select data (((data.length - 2 : ℕ) : ℚ) / ((threshold - 2 : ℕ) : ℚ)) st.1 i,
           st.2 ++ [data.getD (downsample_lttb_select data
             (((data.length - 2 : ℕ) : ℚ) / ((threshold - 2 : ℕ) : ℚ)) st.1 i) (0, 0)]))
        (0, [data.getD 0 (0, 0)])).2 ++ [data.getD (data.length - 1) (0, 0)] := by
    rw [downsample_lttb, if_neg hguard]
  have hperf : lttb_downsample data threshold =
      ((List.range (threshold - 2)).foldl
        (fun st i =>
          (lttb_bucket_select data (((data.length - 2 : ℕ) : ℚ) / ((threshold - 2 : ℕ) : ℚ)) st.1 i,
           st.2 ++ [data.getD (lttb_bucket_select data
             (((data.length - 2 : ℕ) : ℚ) / ((threshold - 2 : ℕ) : ℚ)) st.1 i) (0, 0)]))
        (0, [data.getD 0 (0, 0)])).2 ++ [data.getD (data.length - 1) (0, 0)] := by
    rw [lttb_downsample, if_neg hguard2]
  obtain ⟨tl1, htl1⟩ := foldl_append_shape
    (fun a i => downsample_lttb_select data (((data.length - 2 : ℕ) : ℚ) / ((threshold - 2 : ℕ) : ℚ)) a i)
    (fun a i => data.getD (downsample_lttb_select data
      (((data.length - 2 : ℕ) : ℚ) / ((threshold - 2 : ℕ) : ℚ)) a i) (0, 0))
    (List.range (threshold - 2)) 0 [data.getD 0 (0, 0)]
  obtain ⟨tl2, htl2⟩ := foldl_append_shape
    (fun a i => lttb_bucket_select data (((data.length - 2 : ℕ) : ℚ) / ((threshold - 2 : ℕ) : ℚ)) a i)
    (fun a i => data.getD (lttb_bucket_select data
      (((data.length - 2 : ℕ) : ℚ) / ((threshold - 2 : ℕ) : ℚ)) a i) (0, 0))
    (List.range (threshold - 2)) 0 [data.getD 0 (0, 0)]
  rw [compute_lttb, hperf, happ, htl1, htl2]
  rw [head?_eq_getD data (0, 0) hne, getLast?_eq_getD data (0, 0) hne]
  refine ⟨by simp, ?_, by simp, ?_⟩
  · rw [List.getLast?_concat]
  · rw [List.getLast?_concat]

/-- C4 witness: the endpoint theorem applied to five concrete points with
target `3`. -/
theorem C4_witness :
    (downsample_lttb [(0, 0), (1, 1), (2, 2), (3, 3), (4, 4)] 3).head? =
      some ((0 : ℚ), (0 : ℚ)) ∧
    (downsample_lttb [(0, 0), (1, 1), (2, 2), (3, 3), (4, 4)] 3).getLast? =
      some ((4 : ℚ), (4 : ℚ)) := by
  have h := C4_lttb_endpoints [(0, 0), (1, 1), (2, 2), (3, 3), (4, 4)] 3
    (by decide) (by decide)
  exact ⟨h.1.trans rfl, h.2.1.trans rfl⟩

/-! ## Histogram (src/app.rs `calculate_histogram`) -/

/-- Minimum of a list of values.  The source folds `f64::min` starting
from `+∞` (src/app.rs:678); for non-empty input that equals folding from
the first element, which is how we model it (the empty case is behind the
`is_empty` guard and never read). -/
def listMin : List ℚ → ℚ
  | [] => 0
  | v :: rest => rest.foldl min v

/-- Maximum of a list of values; the source folds `f64::max` from `-∞`
(src/app.rs:679). -/
def listMax : List ℚ → ℚ
  | [] => 0
  | v :: rest => rest.foldl max v

/-- Embedding of `PlotOxide::calculate_histogram` (src/app.rs:673-705).
Returns `(bins as (left_edge, count) pairs, min, bin_width)`.  Empty input
or zero bins returns `([], 0, 0)`; a zero range (all values equal) returns
`([], min, max)` — note the third component is `max`, not a bin width, in
that branch, exactly as in the source.  Bin index is
`⌊(v - min)/bin_width⌋` clamped to `bins - 1` (the f64→usize cast also
clamps below at `0`, matching `Nat.floor`). -/
def calculate_histogram (values : List ℚ) (bins : ℕ) : List (ℚ × ℚ) × ℚ × ℚ :=
  if values = [] ∨ bins = 0 then ([], 0, 0)
  else
    let mn := listMin values
    let mx := listMax values
    let range := mx - mn
    if range = 0 then ([], mn, mx)
    else
      let bin_width := range / (bins : ℚ)
      let counts := values.foldl
        (fun counts v =>
          let bin_idx := min (⌊(v - mn) / bin_width⌋₊) (bins - 1)
          counts.set bin_idx (counts.getD bin_idx 0 + 1))
        (List.replicate bins (0 : ℕ))
      let hist_data := counts.enum.map (fun ic => (mn + (ic.1 : ℚ) * bin_width, (ic.2 : ℚ)))
      (hist_data, mn, bin_width)

theorem sum_set_getD_succ : ∀ (l : List ℕ) (i : ℕ), i < l.length →
    (l.set i (l.getD i 0 + 1)).sum = l.sum + 1 := by
  intro l
  induction l with
  | nil => intro i h; simp at h
  | cons x xs ih =>
    intro i h
    cases i with
    | zero => simp [List.getD]; omega
    | succ j =>
      have hj : j < xs.length := by simpa using h
      simp only [List.set, List.sum_cons, List.getD_cons_succ]
      rw [ih j hj]
      omega

theorem hist_foldl_sum (mn bw : ℚ) (bins : ℕ) (hbins : bins ≠ 0) :
    ∀ (vs : List ℚ) (counts : List ℕ), counts.length = bins →
      ((vs.foldl (fun counts v =>
          counts.set (min (⌊(v - mn) / bw⌋₊) (bins - 1))
            (counts.getD (min (⌊(v - mn) / bw⌋₊) (bins - 1)) 0 + 1)) counts).sum =
        counts.sum + vs.length ∧
       (vs.foldl (fun counts v =>
          counts.set (min (⌊(v - mn) / bw⌋₊) (bins - 1))
            (counts.getD (min (⌊(v - mn) / bw⌋₊) (bins - 1)) 0 + 1)) counts).length = bins) := by
  intro vs
  induction vs with
  | nil => intro counts h; simpa using h
  | cons v rest ih =>
    intro counts h
    have hidx : min (⌊(v - mn) / bw⌋₊) (bins - 1) < counts.length := by
      rw [h]; omega
    have hstep := sum_set_getD_succ counts _ hidx
    have hlen : (counts.set (min (⌊(v - mn) / bw⌋₊) (bins - 1))
        (counts.getD (min (⌊(v - mn) / bw⌋₊) (bins - 1)) 0 + 1)).length = bins := by
      rw [List.length_set]; exact h
    obtain ⟨hs, hl⟩ := ih _ hlen
    refine ⟨?_, by simpa using hl⟩
    simp only [List.foldl_cons]
    rw [hs, hstep]
    simp only [List.length_cons]
    omega

theorem enum_snd_cast_sum (cs : List ℕ) :
    (cs.enum.map (fun ic => ((ic.2 : ℚ)))).sum = (cs.sum : ℚ) := by
  have h1 : cs.enum.map (fun ic => ((ic.2 : ℚ)))
      = (cs.enum.map Prod.snd).map (fun c : ℕ => (c : ℚ)) := by
    rw [List.map_map]; rfl
  rw [h1, List.enum_map_snd, Nat.cast_list_sum]

theorem hist_sum_total (values : List ℚ) (bins : ℕ) (hbins : bins ≠ 0) (mn bw : ℚ) :
    ((((values.foldl (fun counts v =>
        counts.set (min (⌊(v - mn) / bw⌋₊) (bins - 1))
          (counts.getD (min (⌊(v - mn) / bw⌋₊) (bins - 1)) 0 + 1))
      (List.replicate bins (0 : ℕ))).enum.map
        (fun ic => (mn + (ic.1 : ℚ) * bw, (ic.2 : ℚ)))).map Prod.snd).sum)
      = (values.length : ℚ) := by
  obtain ⟨hsum, _⟩ := hist_foldl_sum mn bw bins hbins values
    (List.replicate bins (0 : ℕ)) (by simp)
  rw [List.map_map]
  have heq : ((values.foldl (fun counts v =>
        counts.set (min (⌊(v - mn) / bw⌋₊) (bins - 1))
          (counts.getD (min (⌊(v - mn) / bw⌋₊) (bins - 1)) 0 + 1))
      (List.replicate bins (0 : ℕ))).enum.map
        (Prod.snd ∘ fun ic => (mn + (ic.1 : ℚ) * bw, (ic.2 : ℚ))))
      = ((values.foldl (fun counts v =>
        counts.set (min (⌊(v - mn) / bw⌋₊) (bins - 1))
          (counts.getD (min (⌊(v - mn) / bw⌋₊) (bins - 1)) 0 + 1))
      (List.replicate bins (0 : ℕ))).enum.map (fun ic => ((ic.2 : ℚ)))) := rfl
  rw [heq, enum_snd_cast_sum, hsum]
  simp

/-- C3 (amended). For any non-empty input with at least two distinct
values (non-zero range) and `bins ≥ 1`, the bin counts of
`calculate_histogram` sum to the input length; when all values are equal
the source returns an empty histogram instead (zero total), so the claim
as stated fails on constant input. -/
theorem C3_histogram_conservation (values : List ℚ) (bins : ℕ)
    (hne : values ≠ []) (hbins : bins ≠ 0)
    (hrange : listMin values ≠ listMax values) :
    ((calculate_histogram values bins).1.map Prod.snd).sum = (values.length : ℚ) := by
  have hguard : ¬(values = [] ∨ bins = 0) := by
    intro hc
    rcases hc with hc | hc
    · exact hne hc
    · exact hbins hc
  have hrange' : ¬(listMax values - listMin values = 0) := by
    intro hc
    exact hrange (sub_eq_zero.mp hc).symm
  rw [calculate_histogram, if_neg hguard, if_neg hrange']
  exact hist_sum_total values bins hbins (listMin values)
    ((listMax values - listMin values) / (bins : ℚ))

/-- C3 counterexample: on the constant input `[5, 5]` with one bin the
source takes the `range == 0` early return and produces an empty
histogram, so the bin counts sum to `0`, not to the input length `2`. -/
theorem C3_counterexample_constant_input :
    ((calculate_histogram [5, 5] 1).1.map Prod.snd).sum ≠ (([5, 5] : List ℚ).length : ℚ) := by
  have h : calculate_histogram [5, 5] 1 = ([], 5, 5) := by
    rw [calculate_histogram, if_neg (by simp)]
    norm_num [listMin, listMax]
  rw [h]
  norm_num

/-- C3 witness: the amended conservation theorem applied to `[0, 1]` with
one bin. -/
theorem C3_witness :
    ((calculate_histogram [0, 1] 1).1.map Prod.snd).sum = (([0, 1] : List ℚ).length : ℚ) :=
  C3_histogram_conservation [0, 1] 1 (by simp) (by simp)
    (by norm_num [listMin, listMax, min_def, max_def])

/-! ## Outlier detection (src/app.rs `detect_outliers`) -/

/-- Embedding of `PlotOxide::detect_outliers` (src/app.rs:421-428).  The
source keeps the indices with `((v - mean) / std_dev).abs() > threshold`,
where `(mean, std_dev) = Self::calculate_statistics(values)` and `std_dev`
is the square root of the population variance.  In exact arithmetic the
comparison is reproduced case by case: when the variance is `0` the
quotient is `0.0/0.0 = NaN` for `v = mean` (every comparison false) and
`±∞` for `v ≠ mean` (greater than every finite threshold); when the
variance is positive, `|(v - mean)/√variance| > threshold` holds iff
`threshold < 0` or `threshold² · variance < (v - mean)²`, the decidable
form used here (`C5_detect_outliers` proves the agreement with the
real-valued z-score condition). -/
def detect_outliers (values : List ℚ) (threshold : ℚ) : List ℕ :=
  let mean := (calculate_statistics_var values).1
  let variance := (calculate_statistics_var values).2
  values.enum.filterMap (fun iv =>
    if variance = 0 then
      if iv.2 ≠ mean then some iv.1 else none
    else
      if threshold < 0 ∨ threshold ^ 2 * variance < (iv.2 - mean) ^ 2 then some iv.1
      else none)

theorem sq_dev_sum_zero (m : ℚ) :
    ∀ (l : List ℚ), (l.map (fun v => (v - m) ^ 2)).sum = 0 → ∀ v ∈ l, v = m := by
  intro l
  induction l with
  | nil => intro _ v hv; simp at hv
  | cons x xs ih =>
    intro hsum v hv
    have hx : 0 ≤ (x - m) ^ 2 := sq_nonneg _
    have hxs : 0 ≤ (xs.map (fun v => (v - m) ^ 2)).sum :=
      List.sum_nonneg (by
        intro y hy
        obtain ⟨w, _, rfl⟩ := List.mem_map.mp hy
        exact sq_nonneg _)
    rw [List.map_cons, List.sum_cons] at hsum
    have hx0 : (x - m) ^ 2 = 0 := by linarith
    have hxs0 : (xs.map (fun v => (v - m) ^ 2)).sum = 0 := by linarith
    rcases List.mem_cons.mp hv with hv' | hv'
    · have hz := sq_eq_zero_iff.mp hx0
      rw [hv']
      linarith [sub_eq_zero.mp hz]
    · exact ih hxs0 v hv'

theorem popVariance_nonneg (values : List ℚ) : 0 ≤ (calculate_statistics_var values).2 := by
  cases values with
  | nil => simp [calculate_statistics_var]
  | cons x xs =>
    simp only [calculate_statistics_var]
    apply div_nonneg
    · exact List.sum_nonneg (by
        intro y hy
        obtain ⟨w, _, rfl⟩ := List.mem_map.mp hy
        exact sq_nonneg _)
    · positivity

theorem variance_zero_all_eq (values : List ℚ)
    (h : (calculate_statistics_var values).2 = 0) :
    ∀ v ∈ values, v = (calculate_statistics_var values).1 := by
  cases values with
  | nil => intro v hv; simp at hv
  | cons x xs =>
    simp only [calculate_statistics_var] at h ⊢
    have hlen : ((x :: xs).length : ℚ) ≠ 0 := Nat.cast_ne_zero.mpr (by simp)
    have hsum : ((x :: xs).map
        (fun v => (v - (x :: xs).sum / ((x :: xs).length : ℚ)) ^ 2)).sum = 0 := by
      rcases div_eq_zero_iff.mp h with h' | h'
      · exact h'
      · exact absurd h' hlen
    exact sq_dev_sum_zero _ _ hsum

theorem zscore_iff (a t var : ℚ) (hv : 0 < var) :
    (t < 0 ∨ t ^ 2 * var < a ^ 2) ↔
      (t : ℝ) < |(a : ℝ)| / Real.sqrt ((var : ℚ) : ℝ) := by
  have hvR : (0 : ℝ) < ((var : ℚ) : ℝ) := by exact_mod_cast hv
  have hσ : 0 < Real.sqrt ((var : ℚ) : ℝ) := Real.sqrt_pos.mpr hvR
  constructor
  · rintro (ht | hgt)
    · have ht' : (t : ℝ) < 0 := by exact_mod_cast ht
      exact lt_of_lt_of_le ht' (div_nonneg (abs_nonneg _) hσ.le)
    · rw [lt_div_iff hσ]
      rcases lt_or_le t 0 with ht | ht
      · have : (t : ℝ) * Real.sqrt ((var : ℚ) : ℝ) < 0 :=
          mul_neg_of_neg_of_pos (by exact_mod_cast ht) hσ
        exact lt_of_lt_of_le this (abs_nonneg _)
      · have htR : (0 : ℝ) ≤ (t : ℝ) := by exact_mod_cast ht
        apply lt_of_pow_lt_pow_left 2 (abs_nonneg _)
        rw [mul_pow, Real.sq_sqrt hvR.le, sq_abs]
        exact_mod_cast hgt
  · intro h
    rcases lt_or_le t 0 with ht | ht
    · exact Or.inl ht
    · right
      have htR : (0 : ℝ) ≤ (t : ℝ) := by exact_mod_cast ht
      rw [lt_div_iff hσ] at h
      have hsq : ((t : ℝ) * Real.sqrt ((var : ℚ) : ℝ)) ^ 2 < |(a : ℝ)| ^ 2 :=
        pow_lt_pow_left h (mul_nonneg htR hσ.le) (by norm_num)
      rw [mul_pow, Real.sq_sqrt hvR.le, sq_abs] at hsq
      exact_mod_cast hsq

/-- C5 (confirmed). When the population standard deviation is zero,
`detect_outliers` flags nothing (every z-score is `0/0 = NaN` because a
zero variance forces every value to equal the mean, and a `NaN`
comparison is false); otherwise it returns exactly the indices whose
absolute z-score `|(v - mean)| / √variance` exceeds the threshold. -/
theorem C5_detect_outliers (values : List ℚ) (threshold : ℚ) :
    (Real.sqrt (((calculate_statistics_var values).2 : ℚ) : ℝ) = 0 →
      detect_outliers values threshold = []) ∧
    (Real.sqrt (((calculate_statistics_var values).2 : ℚ) : ℝ) ≠ 0 →
      ∀ i : ℕ, i ∈ detect_outliers values threshold ↔
        i < values.length ∧
        (threshold : ℝ) <
          |((values.getD i 0 : ℚ) : ℝ) - (((calculate_statistics_var values).1 : ℚ) : ℝ)| /
            Real.sqrt (((calculate_statistics_var values).2 : ℚ) : ℝ)) := by
  constructor
  · intro hsqrt
    have hle : (((calculate_statistics_var values).2 : ℚ) : ℝ) ≤ 0 :=
      Real.sqrt_eq_zero'.mp hsqrt
    have hvar0 : (calculate_statistics_var values).2 = 0 := by
      have h1 : (calculate_statistics_var values).2 ≤ 0 := by exact_mod_cast hle
      exact le_antisymm h1 (popVariance_nonneg values)
    have hall := variance_zero_all_eq values hvar0
    rw [detect_outliers]
    simp only [hvar0, if_pos rfl, if_true]
    apply List.filterMap_eq_nil.mpr
    rw [List.forall_mem_enum]
    intro i hi
    have hv := hall (values[i]) (List.getElem_mem hi)
    simp [hv]
  · intro hsqrt i
    have hvpos : 0 < (calculate_statistics_var values).2 := by
      have := Real.sqrt_ne_zero'.mp hsqrt
      exact_mod_cast this
    have hvne : (calculate_statistics_var values).2 ≠ 0 := ne_of_gt hvpos
    rw [detect_outliers]
    simp only [if_neg hvne]
    rw [List.mem_filterMap]
    constructor
    · rintro ⟨⟨j, v⟩, hmem, hf⟩
      have hj := List.mem_enum_iff_get?.mp hmem
      simp only at hf
      by_cases hcond : threshold < 0 ∨ threshold ^ 2 * (calculate_statistics_var values).2 <
          (v - (calculate_statistics_var values).1) ^ 2
      · rw [if_pos hcond] at hf
        have hji : j = i := by injection hf
        subst hji
        have hjlen : j < values.length := by
          by_contra hge
          rw [List.get?_eq_none.mpr (by omega)] at hj
          exact Option.noConfusion hj
        have hval : values.getD j 0 = v := by
          rw [List.getD_eq_getElem?_getD]
          rw [← List.get?_eq_getElem?, hj]
          rfl
        refine ⟨hjlen, ?_⟩
        have := (zscore_iff (v - (calculate_statistics_var values).1) threshold
          ((calculate_statistics_var values).2) hvpos).mp hcond
        rw [hval]
        convert this using 2
        push_cast
        ring
      · rw [if_neg hcond] at hf
        exact Option.noConfusion hf
    · rintro ⟨hlen, hz⟩
      refine ⟨(i, values.getD i 0), ?_, ?_⟩
      · apply List.mem_enum_iff_get?.mpr
        simp only
        rw [List.get?_eq_getElem?, List.getElem?_eq_getElem hlen, List.getD_eq_getElem]
      · have hcond : threshold < 0 ∨ threshold ^ 2 * (calculate_statistics_var values).2 <
            (values.getD i 0 - (calculate_statistics_var values).1) ^ 2 := by
          apply (zscore_iff (values.getD i 0 - (calculate_statistics_var values).1) threshold
            ((calculate_statistics_var values).2) hvpos).mpr
          convert hz using 2
          push_cast
          ring
        simp only [if_pos hcond]

/-- C5 witness: the zero-stddev branch of the theorem applied to the
constant list `[1, 1]` (no outliers), together with the spec's own
example `[1, 2, 3, 4, 5, 100]` at threshold `2`, where exactly index `5`
is flagged. -/
theorem C5_witness :
    detect_outliers [1, 1] 3 = [] ∧
    detect_outliers [1, 2, 3, 4, 5, 100] 2 = [5] := by
  constructor
  · apply (C5_detect_outliers [1, 1] 3).1
    have hv : (calculate_statistics_var [1, 1]).2 = 0 := by
      norm_num [calculate_statistics_var]
    rw [hv]
    norm_num
  · norm_num [detect_outliers, calculate_statistics_var, List.enum, List.enumFrom,
      List.filterMap]

/-! ## X-bar-R chart (src/app.rs `calculate_xbarr`) -/

/-- Result record for `PlotOxide::calculate_xbarr`; the source returns the
same eight values as a flat tuple
`(xbar_points, r_points, xbar_mean, xbar_ucl, xbar_lcl, r_mean, r_ucl, r_lcl)`. -/
structure XbarrResult where
  xbar_points : List (ℚ × ℚ)
  r_points : List (ℚ × ℚ)
  xbar_mean : ℚ
  xbar_ucl : ℚ
  xbar_lcl : ℚ
  r_mean : ℚ
  r_ucl : ℚ
  r_lcl : ℚ
deriving DecidableEq

/-- Embedding of `PlotOxide::get_xbarr_constants` (src/app.rs:543-557):
the published `(A2, D3, D4)` control-chart constants for subgroup sizes
2 through 10, `none` outside that table. -/
def get_xbarr_constants (n : ℕ) : Option (ℚ × ℚ × ℚ) :=
  match n with
  | 2 => some (1.880, 0.000, 3.267)
  | 3 => some (1.023, 0.000, 2.574)
  | 4 => some (0.729, 0.000, 2.282)
  | 5 => some (0.577, 0.000, 2.114)
  | 6 => some (0.483, 0.000, 2.004)
  | 7 => some (0.419, 0.076, 1.924)
  | 8 => some (0.373, 0.136, 1.864)
  | 9 => some (0.337, 0.184, 1.816)
  | 10 => some (0.308, 0.223, 1.777)
  | _ => none

/-- Embedding of `PlotOxide::calculate_xbarr` (src/app.rs:559-607).  Empty
input or `subgroup_size < 2` returns the all-zero result; otherwise the
values are cut into `len / subgroup_size` complete subgroups (the
remainder rows are dropped by the `take`), per-subgroup means and ranges
are computed (`listMin`/`listMax` model the `f64::min`/`f64::max` folds
from `±∞`; each subgroup is non-empty here), and the control limits use
`get_xbarr_constants(subgroup_size).unwrap_or((0.577, 0.0, 2.114))` —
the size-5 constants as fallback. -/
def calculate_xbarr (values : List ℚ) (subgroup_size : ℕ) : XbarrResult :=
  if values = [] ∨ subgroup_size < 2 then ⟨[], [], 0, 0, 0, 0, 0, 0⟩
  else
    let num_subgroups := values.length / subgroup_size
    if num_subgroups = 0 then ⟨[], [], 0, 0, 0, 0, 0, 0⟩
    else
      let xbar_points := (List.range num_subgroups).map (fun i =>
        let subgroup := (values.drop (i * subgroup_size)).take subgroup_size
        ((i : ℚ), subgroup.sum / (subgroup.length : ℚ)))
      let r_points := (List.range num_subgroups).map (fun i =>
        let subgroup := (values.drop (i * subgroup_size)).take subgroup_size
        ((i : ℚ), listMax subgroup - listMin subgroup))
      let xbar_mean := (xbar_points.map Prod.snd).sum / (xbar_points.length : ℚ)
      let r_mean := (r_points.map Prod.snd).sum / (r_points.length : ℚ)
      let c := (get_xbarr_constants subgroup_size).getD (0.577, 0.0, 2.114)
      { xbar_points := xbar_points
        r_points := r_points
        xbar_mean := xbar_mean
        xbar_ucl := xbar_mean + c.1 * r_mean
        xbar_lcl := xbar_mean - c.1 * r_mean
        r_mean := r_mean
        r_ucl := c.2.2 * r_mean
        r_lcl := c.2.1 * r_mean }

/-- Modelled from the spec for claim C6: the X-bar-R computation
"deriving its UCL/LCL control limits using the size-5 constants", i.e.
the same subgroup means/ranges/limits computation but with the
control-chart constants supplied explicitly and no `subgroup_size < 2`
guard. -/
def xbarr_with_constants (values : List ℚ) (subgroup_size : ℕ) (c : ℚ × ℚ × ℚ) : XbarrResult :=
  if values = [] ∨ values.length / subgroup_size = 0 then ⟨[], [], 0, 0, 0, 0, 0, 0⟩
  else
    let num_subgroups := values.length / subgroup_size
    let xbar_points := (List.range num_subgroups).map (fun i =>
      let subgroup := (values.drop (i * subgroup_size)).take subgroup_size
      ((i : ℚ), subgroup.sum / (subgroup.length : ℚ)))
    let r_points := (List.range num_subgroups).map (fun i =>
      let subgroup := (values.drop (i * subgroup_size)).take subgroup_size
      ((i : ℚ), listMax subgroup - listMin subgroup))
    let xbar_mean := (xbar_points.map Prod.snd).sum / (xbar_points.length : ℚ)
    let r_mean := (r_points.map Prod.snd).sum / (r_points.length : ℚ)
    { xbar_points := xbar_points
      r_points := r_points
      xbar_mean := xbar_mean
      xbar_ucl := xbar_mean + c.1 * r_mean
      xbar_lcl := xbar_mean - c.1 * r_mean
      r_mean := r_mean
      r_ucl := c.2.2 * r_mean
      r_lcl := c.2.1 * r_mean }

theorem get_xbarr_constants_none (n : ℕ) (h : 10 < n) : get_xbarr_constants n = none := by
  match n, h with
  | n + 11, _ => rfl

/-- C6 (amended). For subgroup sizes *at least 2* outside the 2-10
constants table (i.e. sizes above 10), `calculate_xbarr` derives its
control limits with the size-5 constants `(A2, D3, D4) = (0.577, 0.0,
2.114)`; subgroup sizes 0 and 1, by contrast, hit the
`subgroup_size < 2` guard and return the all-zero result instead of a
size-5-constants computation. -/
theorem C6_xbarr_fallback (values : List ℚ) (subgroup_size : ℕ)
    (h2 : 2 ≤ subgroup_size) (h10 : 10 < subgroup_size) :
    calculate_xbarr values subgroup_size =
      xbarr_with_constants values subgroup_size (0.577, 0.0, 2.114) := by
  have hnone := get_xbarr_constants_none subgroup_size h10
  by_cases hnil : values = []
  · rw [calculate_xbarr, if_pos (Or.inl hnil), xbarr_with_constants, if_pos (Or.inl hnil)]
  · have hguard : ¬(values = [] ∨ subgroup_size < 2) := by
      push_neg
      exact ⟨hnil, by omega⟩
    rw [calculate_xbarr, if_neg hguard, xbarr_with_constants]
    by_cases hnum : values.length / subgroup_size = 0
    · rw [if_pos (Or.inr hnum)]
      simp [hnum]
    · rw [if_neg (not_or.mpr ⟨hnil, hnum⟩)]
      simp [hnum, hnone]

/-- C6 counterexample: at subgroup size `1` (outside the table) the claim
says the size-5 constants are used, which on `[1, 2, 3, 4]` would give an
X-bar UCL of `5/2 + 0.577·0 = 5/2`; the source instead hits the
`subgroup_size < 2` guard and returns `0`. -/
theorem C6_counterexample_subgroup_one :
    (calculate_xbarr [1, 2, 3, 4] 1).xbar_ucl ≠
      (xbarr_with_constants [1, 2, 3, 4] 1 (0.577, 0.0, 2.114)).xbar_ucl := by
  have hL : (calculate_xbarr [1, 2, 3, 4] 1).xbar_ucl = 0 := by
    rw [calculate_xbarr, if_pos (Or.inr (by norm_num))]
  have hR : (xbarr_with_constants [1, 2, 3, 4] 1 (0.577, 0.0, 2.114)).xbar_ucl = 5 / 2 := by
    rw [xbarr_with_constants, if_neg (by simp)]
    norm_num [List.range_succ, listMin, listMax]
  rw [hL, hR]
  norm_num

/-- C6 witness: the fallback theorem applied to eleven values with
subgroup size `11`. -/
theorem C6_witness :
    calculate_xbarr [1, 2, 3, 4, 5, 6, 7, 8, 9, 10, 11] 11 =
      xbarr_with_constants [1, 2, 3, 4, 5, 6, 7, 8, 9, 10, 11] 11 (0.577, 0.0, 2.114) :=
  C6_xbarr_fallback [1, 2, 3, 4, 5, 6, 7, 8, 9, 10, 11] 11 (by decide) (by decide)

/-! ## Western Electric rules
(src/app.rs `detect_western_electric_violations_detailed`)

The source computes `(mean, std_dev) = Self::calculate_statistics(values)`
once and then scans rolling windows per rule, accumulating per-index tag
lists in a `HashMap<usize, Vec<String>>` and finally sorting by point
index.  Because `std_dev` is the (irrational) square root of the
population variance, the embedding is polymorphic over a linear ordered
field and takes `mean` and `std_dev` as parameters; the claims are proved
for every value of both, which in particular covers the real-valued pair
the source computes.  The per-index accumulation order (rule 4 windows in
ascending order, then rules 2, 3, 5, 6) matches the source's loop order,
and since every index owns exactly one map entry, sorting by key is
modelled by enumerating indices in increasing order. -/

/-- Per-point violation record: the source's `WEViolation { point_index,
rules }` struct. -/
structure WEViolation where
  point_index : ℕ
  rules : List String
deriving DecidableEq

/-- Tag string pushed by the source for rule 4. -/
def rule4_tag : String := "Rule 4: 8 consecutive on same side"

/-- Tag string pushed by the source for rule 2. -/
def rule2_tag : String := "Rule 2: 2/3 beyond 2σ"

/-- Tag string pushed by the source for rule 3. -/
def rule3_tag : String := "Rule 3: 4/5 beyond 1σ"

/-- Tag string pushed by the source for rule 5. -/
def rule5_tag : String := "Rule 5: 6 trending"

/-- Tag string pushed by the source for rule 6. -/
def rule6_tag : String := "Rule 6: 14 alternating"

/-- Window slice `&values[i-w..=i]` used by every rule loop. -/
def weSlice {α : Type} (values : List α) (i w : ℕ) : List α :=
  (values.drop (i - w)).take (w + 1)

/-- Rule 4 window test (src/app.rs:731-741): all eight values strictly
above the mean, or all strictly below. -/
def rule4_fires {α : Type} [LinearOrderedField α] (values : List α) (mean : α) (i : ℕ) : Bool :=
  (weSlice values i 7).all (fun v => decide (mean < v)) ||
  (weSlice values i 7).all (fun v => decide (v < mean))

/-- Rule 2 window test (src/app.rs:743-753): at least 2 of 3 consecutive
values beyond two sigma on the same side. -/
def rule2_fires {α : Type} [LinearOrderedField α] (values : List α) (mean std_dev : α)
    (i : ℕ) : Bool :=
  2 ≤ (weSlice values i 2).countP (fun v => decide (mean + 2 * std_dev < v)) ||
  2 ≤ (weSlice values i 2).countP (fun v => decide (v < mean - 2 * std_dev))

/-- Rule 3 window test (src/app.rs:755-765): at least 4 of 5 consecutive
values beyond one sigma on the same side. -/
def rule3_fires {α : Type} [LinearOrderedField α] (values : List α) (mean std_dev : α)
    (i : ℕ) : Bool :=
  4 ≤ (weSlice values i 4).countP (fun v => decide (mean + 1 * std_dev < v)) ||
  4 ≤ (weSlice values i 4).countP (fun v => decide (v < mean - 1 * std_dev))

/-- Strictly increasing adjacent pairs: the source's
`slice.windows(2).all(|w| w[1] > w[0])`. -/
def pairsIncB {α : Type} [LinearOrderedField α] : List α → Bool
  | a :: b :: rest => decide (a < b) && pairsIncB (b :: rest)
  | _ => true

/-- Strictly decreasing adjacent pairs: `windows(2).all(|w| w[1] < w[0])`. -/
def pairsDecB {α : Type} [LinearOrderedField α] : List α → Bool
  | a :: b :: rest => decide (b < a) && pairsDecB (b :: rest)
  | _ => true

/-- Rule 5 window test (src/app.rs:767-777): six consecutive strictly
monotone values. -/
def rule5_fires {α : Type} [LinearOrderedField α] (values : List α) (i : ℕ) : Bool :=
  pairsIncB (weSlice values i 5) || pairsDecB (weSlice values i 5)

/-- Strict local alternation over all windows of three: the source's
`slice.windows(3).all(|w| (w[1] > w[0] && w[1] > w[2]) || (w[1] < w[0] && w[1] < w[2]))`. -/
def alternatingB {α : Type} [LinearOrderedField α] : List α → Bool
  | a :: b :: c :: rest =>
    (decide (a < b) && decide (c < b) || decide (b < a) && decide (b < c)) &&
      alternatingB (b :: c :: rest)
  | _ => true

/-- Rule 6 window test (src/app.rs:779-792): fourteen consecutive
alternating values. -/
def rule6_fires {α : Type} [LinearOrderedField α] (values : List α) (i : ℕ) : Bool :=
  alternatingB (weSlice values i 13)

/-- Tag every index of the window `[lo, hi]` in the per-index map: the
source's inner `for j in (i-w)..=i { map.entry(j).push(tag) }` loop. -/
def tagWindow (lo hi : ℕ) (tag : String) (m : ℕ → List String) : ℕ → List String :=
  fun j => if lo ≤ j ∧ j ≤ hi then m j ++ [tag] else m j

/-- One rule pass: the source's `for i in w..len { if fires(i) { tag
window } }` loop over the per-index map. -/
def weApplyRule (len w : ℕ) (fires : ℕ → Bool) (tag : String)
    (m : ℕ → List String) : ℕ → List String :=
  (List.range' w (len - w)).foldl
    (fun m i => if fires i then tagWindow (i - w) i tag m else m) m

/-- Per-index tag map after all five rule passes: the source's
`violation_map` after the rule 4, 2, 3, 5, 6 loops have run in that
order (src/app.rs:731-792).  Hoisted out of the detection function so
the passes can be reasoned about one at a time. -/
def weMap {α : Type} [LinearOrderedField α]
    (values : List α) (mean std_dev : α) : ℕ → List String :=
  let m0 : ℕ → List String := fun _ => []
  let m1 := weApplyRule values.length 7 (rule4_fires values mean) rule4_tag m0
  let m2 := weApplyRule values.length 2 (rule2_fires values mean std_dev) rule2_tag m1
  let m3 := weApplyRule values.length 4 (rule3_fires values mean std_dev) rule3_tag m2
  let m4 := weApplyRule values.length 5 (rule5_fires values) rule5_tag m3
  if 14 ≤ values.length then
    weApplyRule values.length 13 (rule6_fires values) rule6_tag m4
  else m4

/-- Embedding of
`PlotOxide::detect_western_electric_violations_detailed`
(src/app.rs:716-799), parametrized by the `(mean, std_dev)` pair the
source computes via `calculate_statistics` (see the section comment).
The final conversion of the per-index map into a vector sorted by
`point_index` is modelled by enumerating the indices in increasing order
and keeping those with a non-empty tag list (the map holds exactly one
entry per tagged index, so sorting by the unique keys yields this
enumeration). -/
def detect_western_electric_violations_detailed {α : Type} [LinearOrderedField α]
    (values : List α) (mean std_dev : α) : List WEViolation :=
  if values.length < 8 then []
  else
    (List.range values.length).filterMap (fun j =>
      if weMap values mean std_dev j = [] then none
      else some ⟨j, weMap values mean std_dev j⟩)

theorem weFold_shape (w : ℕ) (fires : ℕ → Bool) (tag : String) :
    ∀ (l : List ℕ) (m : ℕ → List String) (j : ℕ), ∃ k,
      (l.foldl (fun m i => if fires i then tagWindow (i - w) i tag m else m) m) j =
        m j ++ List.replicate k tag := by
  intro l
  induction l with
  | nil => intro m j; exact ⟨0, by simp⟩
  | cons x xs ih =>
    intro m j
    simp only [List.foldl_cons]
    by_cases hf : fires x
    · rw [if_pos hf]
      obtain ⟨k, hk⟩ := ih (tagWindow (x - w) x tag m) j
      rw [hk]
      unfold tagWindow
      by_cases hj : x - w ≤ j ∧ j ≤ x
      · refine ⟨k + 1, ?_⟩
        rw [if_pos hj]
        simp [List.replicate_succ]
      · exact ⟨k, by rw [if_neg hj]⟩
    · rw [if_neg hf]
      exact ih m j

theorem weFold_mem (w : ℕ) (fires : ℕ → Bool) (tag : String) :
    ∀ (l : List ℕ) (m : ℕ → List String) (i0 j : ℕ),
      i0 ∈ l → fires i0 = true → i0 - w ≤ j → j ≤ i0 →
      tag ∈ (l.foldl (fun m i => if fires i then tagWindow (i - w) i tag m else m) m) j := by
  intro l
  induction l with
  | nil => intro m i0 j hmem; simp at hmem
  | cons x xs ih =>
    intro m i0 j hmem hf hlo hhi
    simp only [List.foldl_cons]
    rcases List.mem_cons.mp hmem with hx | hx
    · subst hx
      rw [if_pos hf]
      obtain ⟨k, hk⟩ := weFold_shape w fires tag xs (tagWindow (i0 - w) i0 tag m) j
      rw [hk]
      apply List.mem_append_left
      unfold tagWindow
      rw [if_pos ⟨hlo, hhi⟩]
      simp
    · by_cases hfx : fires x
      · rw [if_pos hfx]
        exact ih _ i0 j hx hf hlo hhi
      · rw [if_neg hfx]
        exact ih _ i0 j hx hf hlo hhi

theorem weFold_id (w : ℕ) (fires : ℕ → Bool) (tag : String) :
    ∀ (l : List ℕ) (m : ℕ → List String),
      (∀ i ∈ l, fires i = false) →
      (l.foldl (fun m i => if fires i then tagWindow (i - w) i tag m else m) m) = m := by
  intro l
  induction l with
  | nil => intro m _; rfl
  | cons x xs ih =>
    intro m hall
    simp only [List.foldl_cons]
    rw [if_neg (by simp [hall x (List.mem_cons_self x xs)])]
    exact ih m (fun i hi => hall i (List.mem_cons_of_mem x hi))

theorem weApplyRule_other (len w : ℕ) (fires : ℕ → Bool) (tag tag' : String)
    (hne : tag ≠ tag') (m : ℕ → List String) (j : ℕ) :
    tag ∈ weApplyRule len w fires tag' m j ↔ tag ∈ m j := by
  obtain ⟨k, hk⟩ := weFold_shape w fires tag' (List.range' w (len - w)) m j
  rw [weApplyRule, hk]
  constructor
  · intro h
    rcases List.mem_append.mp h with h | h
    · exact h
    · exact absurd (List.eq_of_mem_replicate h) hne
  · exact List.mem_append_left _

theorem mem_range'_iff {s n m : ℕ} : m ∈ List.range' s n ↔ s ≤ m ∧ m < s + n := by
  rw [List.mem_range']
  constructor
  · rintro ⟨i, hi, rfl⟩
    omega
  · rintro ⟨h1, h2⟩
    exact ⟨m - s, by omega, by omega⟩

theorem mem_weSlice {α : Type} (values : List α) (d : α) (i w : ℕ) (hw : w ≤ i)
    (hi : i < values.length) (x : α) :
    x ∈ weSlice values i w ↔ ∃ j, i - w ≤ j ∧ j ≤ i ∧ values.getD j d = x := by
  unfold weSlice
  rw [List.mem_iff_getElem]
  constructor
  · rintro ⟨k, hk, hx⟩
    have hk' : k < w + 1 ∧ i - w + k < values.length := by
      simp [List.length_take, List.length_drop] at hk
      omega
    refine ⟨i - w + k, by omega, by omega, ?_⟩
    rw [List.getD_eq_getElem values d (by omega)]
    rw [← hx, List.getElem_take, List.getElem_drop]
  · rintro ⟨j, h1, h2, hx⟩
    have hj : j < values.length := by omega
    refine ⟨j - (i - w), ?_, ?_⟩
    · simp [List.length_take, List.length_drop]
      omega
    · rw [List.getElem_take, List.getElem_drop]
      rw [← List.getD_eq_getElem values d, show i - w + (j - (i - w)) = j from by omega]
      exact hx

theorem weMap_rule4_mem {α : Type} [LinearOrderedField α] (values : List α)
    (mean std_dev : α) (i j : ℕ) (hlen : i + 7 < values.length)
    (hf : rule4_fires values mean (i + 7) = true) (hij : i ≤ j) (hj7 : j ≤ i + 7) :
    rule4_tag ∈ weMap values mean std_dev j := by
  have h1 : rule4_tag ∈ weApplyRule values.length 7 (rule4_fires values mean) rule4_tag
      (fun _ => []) j := by
    rw [weApplyRule]
    exact weFold_mem 7 (rule4_fires values mean) rule4_tag _ _ (i + 7) j
      (mem_range'_iff.mpr ⟨by omega, by omega⟩) hf (by omega) (by omega)
  simp only [weMap]
  by_cases h14 : 14 ≤ values.length
  · rw [if_pos h14,
      weApplyRule_other _ _ _ _ _ (by decide),
      weApplyRule_other _ _ _ _ _ (by decide),
      weApplyRule_other _ _ _ _ _ (by decide),
      weApplyRule_other _ _ _ _ _ (by decide)]
    exact h1
  · rw [if_neg h14,
      weApplyRule_other _ _ _ _ _ (by decide),
      weApplyRule_other _ _ _ _ _ (by decide),
      weApplyRule_other _ _ _ _ _ (by decide)]
    exact h1

theorem weMap_no_rule4 {α : Type} [LinearOrderedField α] (values : List α)
    (mean std_dev : α) (hlen7 : 7 ≤ values.length)
    (hnone : ∀ i', 7 ≤ i' → i' < values.length → rule4_fires values mean i' = false)
    (j : ℕ) : rule4_tag ∉ weMap values mean std_dev j := by
  have h1 : weApplyRule values.length 7 (rule4_fires values mean) rule4_tag
      (fun _ => []) = (fun _ => []) := by
    rw [weApplyRule]
    apply weFold_id
    intro i hi
    have hm := mem_range'_iff.mp hi
    exact hnone i (by omega) (by omega)
  simp only [weMap, h1]
  by_cases h14 : 14 ≤ values.length
  · rw [if_pos h14]
    intro hmem
    rw [weApplyRule_other _ _ _ _ _ (by decide),
      weApplyRule_other _ _ _ _ _ (by decide),
      weApplyRule_other _ _ _ _ _ (by decide),
      weApplyRule_other _ _ _ _ _ (by decide)] at hmem
    simp at hmem
  · rw [if_neg h14]
    intro hmem
    rw [weApplyRule_other _ _ _ _ _ (by decide),
      weApplyRule_other _ _ _ _ _ (by decide),
      weApplyRule_other _ _ _ _ _ (by decide)] at hmem
    simp at hmem

/-- C7 (confirmed). With the per-index map `weMap` feeding
`detect_western_electric_violations_detailed`: a series of fewer than 8
points yields no violations; any window of 8 consecutive points all
strictly above the mean produces a Rule 4 violation entry, with the
rule-4 tag, for each of those 8 indices (so a run of exactly 8
suffices); when no 8-point window lies entirely strictly above or
entirely strictly below the mean (e.g. a maximal run of only 7), no
violation carries the rule-4 tag; and the returned violations are
strictly sorted by point index.  `mean` and `std_dev` are universally
quantified, covering the population mean and standard deviation the
source computes. -/
theorem C7_western_electric_rule4 {α : Type} [LinearOrderedField α]
    (values : List α) (mean std_dev : α) :
    (values.length < 8 →
      detect_western_electric_violations_detailed values mean std_dev = []) ∧
    (∀ i, i + 7 < values.length →
      (∀ j, i ≤ j → j ≤ i + 7 → mean < values.getD j 0) →
      ∀ j, i ≤ j → j ≤ i + 7 →
        ∃ v ∈ detect_western_electric_violations_detailed values mean std_dev,
          v.point_index = j ∧ rule4_tag ∈ v.rules) ∧
    ((∀ i, i + 7 < values.length →
        ¬((∀ j, i ≤ j → j ≤ i + 7 → mean < values.getD j 0) ∨
          (∀ j, i ≤ j → j ≤ i + 7 → values.getD j 0 < mean))) →
      ∀ v ∈ detect_western_electric_violations_detailed values mean std_dev,
        rule4_tag ∉ v.rules) ∧
    List.Pairwise (fun u v => u.point_index < v.point_index)
      (detect_western_electric_violations_detailed values mean std_dev) := by
  refine ⟨?_, ?_, ?_, ?_⟩
  · intro h
    rw [detect_western_electric_violations_detailed, if_pos h]
  · intro i hi hall j hij hj7
    have hlen : ¬values.length < 8 := by omega
    have hf : rule4_fires values mean (i + 7) = true := by
      rw [rule4_fires, Bool.or_eq_true]
      left
      rw [List.all_eq_true]
      intro x hx
      obtain ⟨j', hj1, hj2, hj3⟩ :=
        (mem_weSlice values 0 (i + 7) 7 (by omega) (by omega) x).mp hx
      rw [decide_eq_true_eq, ← hj3]
      exact hall j' (by omega) (by omega)
    have htag := weMap_rule4_mem values mean std_dev i j hi hf hij hj7
    have hmapne : weMap values mean std_dev j ≠ [] := by
      intro hE
      rw [hE] at htag
      simp at htag
    refine ⟨⟨j, weMap values mean std_dev j⟩, ?_, rfl, htag⟩
    rw [detect_western_electric_violations_detailed, if_neg hlen]
    exact List.mem_filterMap.mpr
      ⟨j, List.mem_range.mpr (by omega), by rw [if_neg hmapne]⟩
  · intro hno v hv
    by_cases hlen : values.length < 8
    · rw [detect_western_electric_violations_detailed, if_pos hlen] at hv
      simp at hv
    · have hnone : ∀ i', 7 ≤ i' → i' < values.length →
          rule4_fires values mean i' = false := by
        intro i' h7 hlt
        have hn := hno (i' - 7) (by omega)
        rw [← Bool.not_eq_true, rule4_fires, Bool.or_eq_true]
        intro hc
        apply hn
        rcases hc with hc | hc
        · left
          intro j hj1 hj2
          have hx : values.getD j 0 ∈ weSlice values i' 7 :=
            (mem_weSlice values 0 i' 7 (by omega) (by omega) _).mpr
              ⟨j, by omega, by omega, rfl⟩
          have := List.all_eq_true.mp hc _ hx
          exact decide_eq_true_eq.mp this
        · right
          intro j hj1 hj2
          have hx : values.getD j 0 ∈ weSlice values i' 7 :=
            (mem_weSlice values 0 i' 7 (by omega) (by omega) _).mpr
              ⟨j, by omega, by omega, rfl⟩
          have := List.all_eq_true.mp hc _ hx
          exact decide_eq_true_eq.mp this
      rw [detect_western_electric_violations_detailed, if_neg hlen] at hv
      obtain ⟨j, hjr, hfj⟩ := List.mem_filterMap.mp hv
      by_cases hN : weMap values mean std_dev j = []
      · rw [if_pos hN] at hfj
        exact Option.noConfusion hfj
      · rw [if_neg hN] at hfj
        have hvj : (⟨j, weMap values mean std_dev j⟩ : WEViolation) = v :=
          Option.some_inj.mp hfj
        intro hmem
        apply weMap_no_rule4 values mean std_dev (by omega) hnone j
        rw [← hvj] at hmem
        exact hmem
  · by_cases hlen : values.length < 8
    · rw [detect_western_electric_violations_detailed, if_pos hlen]
      exact List.Pairwise.nil
    · rw [detect_western_electric_violations_detailed, if_neg hlen]
      apply List.Pairwise.filterMap _ ?_ (List.pairwise_lt_range values.length)
      intro a b hab x hx y hy
      by_cases ha : weMap values mean std_dev a = []
      · rw [if_pos ha] at hx
        exact absurd hx (by simp)
      · rw [if_neg ha] at hx
        by_cases hb : weMap values mean std_dev b = []
        · rw [if_pos hb] at hy
          exact absurd hy (by simp)
        · rw [if_neg hb] at hy
          have hxa : (⟨a, weMap values mean std_dev a⟩ : WEViolation) = x :=
            Option.some_inj.mp hx
          have hyb : (⟨b, weMap values mean std_dev b⟩ : WEViolation) = y :=
            Option.some_inj.mp hy
          rw [← hxa, ← hyb]
          exact hab

/-- C7 witness: on eight `1`s followed by `-8` (mean `0`), index `0`
carries a rule-4 violation; and a seven-point series yields no
violations at all. -/
theorem C7_witness :
    (∃ v ∈ detect_western_electric_violations_detailed
        ([1, 1, 1, 1, 1, 1, 1, 1, -8] : List ℚ) 0 1,
      v.point_index = 0 ∧ rule4_tag ∈ v.rules) ∧
    detect_western_electric_violations_detailed
      ([1, 1, 1, 1, 1, 1, 1] : List ℚ) 0 1 = [] := by
  constructor
  · exact (C7_western_electric_rule4 ([1, 1, 1, 1, 1, 1, 1, 1, -8] : List ℚ) 0 1).2.1
      0 (by decide)
      (fun j h0 h7 => by interval_cases j <;> norm_num [List.getD])
      0 (by decide) (by decide)
  · exact (C7_western_electric_rule4 ([1, 1, 1, 1, 1, 1, 1] : List ℚ) 0 1).1 (by decide)

/-! ## Zoom-quantized LTTB cache (src/perf/cache.rs) -/

/-- Embedding of `LttbCache::zoom_bucket` (src/perf/cache.rs:28-33).  The
source computes `(visible_range.log2() * 2.0).floor() as i32` behind a
`visible_range <= 0.0` guard that returns `0`.  Since
`2·log₂ w = log₂ (w²)`, the floor equals `Int.log 2 (w * w)`, the
computable form used here; `zoom_bucket_eq_floor_logb` proves agreement
with the source's formula. -/
def zoom_bucket (visible_range : ℚ) : ℤ :=
  if visible_range ≤ 0 then 0
  else Int.log 2 (visible_range * visible_range)

theorem Int_log_ratCast (q : ℚ) (hq : 0 < q) :
    Int.log 2 ((q : ℝ)) = Int.log 2 q := by
  have hqR : (0 : ℝ) < (q : ℝ) := by exact_mod_cast hq
  have hb : (1 : ℕ) < 2 := by norm_num
  have hcast : ∀ z : ℤ, ((((2 : ℕ) : ℚ) ^ z : ℚ) : ℝ) = ((2 : ℕ) : ℝ) ^ z := by
    intro z
    rw [Rat.cast_zpow]
    norm_num
  apply le_antisymm
  · have hlt : (q : ℚ) < ((2 : ℕ) : ℚ) ^ (Int.log 2 q + 1) :=
      Int.lt_zpow_succ_log_self hb q
    have hltR : (q : ℝ) < ((2 : ℕ) : ℝ) ^ (Int.log 2 q + 1) := by
      rw [← hcast]
      exact Rat.cast_lt.mpr hlt
    have := (Int.lt_zpow_iff_log_lt hb hqR).mp hltR
    omega
  · have hle : ((2 : ℕ) : ℚ) ^ (Int.log 2 q) ≤ q :=
      Int.zpow_log_le_self hb hq
    have hleR : ((2 : ℕ) : ℝ) ^ (Int.log 2 q) ≤ (q : ℝ) := by
      rw [← hcast]
      exact Rat.cast_le.mpr hle
    exact (Int.zpow_le_iff_le_log hb hqR).mp hleR

/-- Bridging lemma: for positive widths the embedded bucket equals the
source's `floor(log2(width) * 2)`. -/
theorem zoom_bucket_eq_floor_logb (w : ℚ) (hw : 0 < w) :
    zoom_bucket w = ⌊Real.logb 2 (w : ℝ) * 2⌋ := by
  rw [zoom_bucket, if_neg (not_le.mpr hw)]
  have hwR : (0 : ℝ) < (w : ℝ) := by exact_mod_cast hw
  have h2 : Real.logb 2 (w : ℝ) * 2 = Real.logb 2 (((w * w : ℚ)) : ℝ) := by
    push_cast
    rw [Real.logb_mul (ne_of_gt hwR) (ne_of_gt hwR)]
    ring
  rw [h2]
  have hcast : (2 : ℝ) = ((2 : ℕ) : ℝ) := by norm_num
  rw [show Real.logb 2 (((w * w : ℚ)) : ℝ) = Real.logb ((2 : ℕ) : ℝ) (((w * w : ℚ)) : ℝ) from by
    rw [← hcast]]
  rw [Real.floor_logb_natCast (by positivity)]
  rw [Int_log_ratCast (w * w) (by positivity)]

/-- Evaluation helper for concrete buckets: if `w² = n` with
`2^k ≤ n < 2^(k+1)` then the bucket of `w` is `k`. -/
theorem zoom_bucket_eval (w : ℚ) (n k : ℕ) (hw : 0 < w) (hsq : w * w = (n : ℚ))
    (hlo : 2 ^ k ≤ n) (hhi : n < 2 ^ (k + 1)) : zoom_bucket w = k := by
  rw [zoom_bucket, if_neg (not_le.mpr hw), hsq, Int.log_natCast,
    Nat.log_eq_of_pow_le_of_lt_pow hlo hhi]

/-- Embedding of the `LttbCache` state (src/perf/cache.rs:11-24): the
`HashMap<(usize, i32), Vec<[f64; 2]>>` is modelled as an association
list. -/
structure LttbCache where
  cache : List ((ℕ × ℤ) × List (ℚ × ℚ))
  target_points : ℕ
  max_entries : ℕ

/-- Constructor `LttbCache::new` — empty map, `max_entries = 100`. -/
def LttbCache.new (target_points : ℕ) : LttbCache := ⟨[], target_points, 100⟩

/-- Membership test of the modelled `HashMap` (`contains_key`). -/
def cacheContains (c : List ((ℕ × ℤ) × List (ℚ × ℚ))) (k : ℕ × ℤ) : Bool :=
  c.any (fun e => decide (e.1 = k))

/-- Lookup in the modelled `HashMap` (the source's
`cache.get(&key).map(..).unwrap_or(&[])`). -/
def cacheGet (c : List ((ℕ × ℤ) × List (ℚ × ℚ))) (k : ℕ × ℤ) : List (ℚ × ℚ) :=
  match c.find? (fun e => decide (e.1 = k)) with
  | some e => e.2
  | none => []

/-- Embedding of `LttbCache::enforce_limit` (src/perf/cache.rs:76-88):
once the entry count reaches `max_entries`, remove half of the entries.
The source takes the first `len/2` keys in the `HashMap`'s unspecified
iteration order; the model drops the first half of the association list,
one concrete refinement of that order. -/
def LttbCache.enforce_limit (c : LttbCache) : LttbCache :=
  if c.max_entries ≤ c.cache.length then
    { c with cache := c.cache.drop (c.cache.length / 2) }
  else c

/-- Embedding of `LttbCache::get_or_compute` (src/perf/cache.rs:36-56).
On a key miss the source evicts if needed, invokes `compute_fn` with
`target_points` and inserts; either way it returns the entry now under
the key.  The returned `Bool` records whether `compute_fn` was invoked
(the observable the cache-hit claims are about). -/
def LttbCache.get_or_compute (c : LttbCache) (series_id : ℕ)
    (visible_range : ℚ × ℚ) (compute_fn : ℕ → List (ℚ × ℚ)) :
    List (ℚ × ℚ) × LttbCache × Bool :=
  let range_width := visible_range.2 - visible_range.1
  let key := (series_id, zoom_bucket range_width)
  if cacheContains c.cache key then
    (cacheGet c.cache key, c, false)
  else
    let c' := c.enforce_limit
    let points := compute_fn c.target_points
    let c'' := { c' with cache := (key, points) :: c'.cache }
    (cacheGet c''.cache key, c'', true)

theorem get_or_compute_contains (c : LttbCache) (id : ℕ) (r : ℚ × ℚ)
    (f : ℕ → List (ℚ × ℚ)) :
    cacheContains ((c.get_or_compute id r f).2.1).cache
      (id, zoom_bucket (r.2 - r.1)) = true := by
  rw [LttbCache.get_or_compute]
  by_cases h : cacheContains c.cache (id, zoom_bucket (r.2 - r.1)) = true
  · rw [if_pos h]
    exact h
  · rw [if_neg h]
    simp [cacheContains]

theorem get_or_compute_hit (c : LttbCache) (id : ℕ) (r : ℚ × ℚ)
    (g : ℕ → List (ℚ × ℚ))
    (h : cacheContains c.cache (id, zoom_bucket (r.2 - r.1)) = true) :
    (c.get_or_compute id r g).2.2 = false := by
  rw [LttbCache.get_or_compute, if_pos h]

/-- C8 (confirmed). Two `get_or_compute` calls for the same series whose
positive visible-range widths land in the same zoom bucket invoke the
compute closure zero times on the second call; the bucket is
`⌊log₂(width)·2⌋` (the embedded `zoom_bucket` agrees with that formula
for every positive width), and `100.0` and `110.0` share a bucket while
`100.0` and `250.0` do not. -/
theorem C8_cache_hit_same_bucket (c : LttbCache) (id : ℕ) (r1 r2 : ℚ × ℚ)
    (f g : ℕ → List (ℚ × ℚ))
    (h1 : 0 < r1.2 - r1.1) (h2 : 0 < r2.2 - r2.1)
    (hb : zoom_bucket (r1.2 - r1.1) = zoom_bucket (r2.2 - r2.1)) :
    (((c.get_or_compute id r1 f).2.1).get_or_compute id r2 g).2.2 = false ∧
    (∀ w : ℚ, 0 < w → zoom_bucket w = ⌊Real.logb 2 (w : ℝ) * 2⌋) ∧
    zoom_bucket 100 = zoom_bucket 110 ∧
    zoom_bucket 100 ≠ zoom_bucket 250 := by
  refine ⟨?_, zoom_bucket_eq_floor_logb, ?_, ?_⟩
  · apply get_or_compute_hit
    rw [← hb]
    exact get_or_compute_contains c id r1 f
  · rw [zoom_bucket_eval 100 10000 13 (by norm_num) (by norm_num) (by norm_num) (by norm_num),
      zoom_bucket_eval 110 12100 13 (by norm_num) (by norm_num) (by norm_num) (by norm_num)]
  · rw [zoom_bucket_eval 100 10000 13 (by norm_num) (by norm_num) (by norm_num) (by norm_num),
      zoom_bucket_eval 250 62500 15 (by norm_num) (by norm_num) (by norm_num) (by norm_num)]
    decide

/-- C8 witness: the theorem applied to a fresh cache with ranges
`(0, 100)` and `(0, 110)`. -/
theorem C8_witness :
    (((LttbCache.new 100).get_or_compute 0 (0, 100) (fun _ => [])).2.1.get_or_compute
      0 (0, 110) (fun _ => [])).2.2 = false := by
  have hb : zoom_bucket ((0, (100 : ℚ)).2 - (0, (100 : ℚ)).1) =
      zoom_bucket ((0, (110 : ℚ)).2 - (0, (110 : ℚ)).1) := by
    norm_num
    rw [zoom_bucket_eval 100 10000 13 (by norm_num) (by norm_num) (by norm_num) (by norm_num),
      zoom_bucket_eval 110 12100 13 (by norm_num) (by norm_num) (by norm_num) (by norm_num)]
  exact (C8_cache_hit_same_bucket (LttbCache.new 100) 0 (0, 100) (0, 110)
    (fun _ => []) (fun _ => []) (by norm_num) (by norm_num) hb).1

/-- C10 (confirmed). Any visible range of zero or negative width
(including inverted ranges) takes the `visible_range <= 0.0` guard in
`zoom_bucket`, yielding bucket `0` without evaluating `log2`; hence all
such ranges of one series share a single cache key, and a second
`get_or_compute` with any non-positive-width range after a first one
never invokes the compute closure. -/
theorem C10_zoom_bucket_nonpositive (c : LttbCache) (id : ℕ) (r1 r2 : ℚ × ℚ)
    (f g : ℕ → List (ℚ × ℚ))
    (h1 : r1.2 - r1.1 ≤ 0) (h2 : r2.2 - r2.1 ≤ 0) :
    (∀ w : ℚ, w ≤ 0 → zoom_bucket w = 0) ∧
    zoom_bucket (r1.2 - r1.1) = zoom_bucket (r2.2 - r2.1) ∧
    (((c.get_or_compute id r1 f).2.1).get_or_compute id r2 g).2.2 = false := by
  have hz : ∀ w : ℚ, w ≤ 0 → zoom_bucket w = 0 := by
    intro w hw
    rw [zoom_bucket, if_pos hw]
  refine ⟨hz, by rw [hz _ h1, hz _ h2], ?_⟩
  apply get_or_compute_hit
  rw [hz _ h2, ← hz _ h1]
  exact get_or_compute_contains c id r1 f

/-- C10 witness: the theorem applied to a fresh cache with an inverted
range `(5, 3)` followed by a degenerate range `(2, 2)`. -/
theorem C10_witness :
    (((LttbCache.new 100).get_or_compute 7 (5, 3) (fun _ => [])).2.1.get_or_compute
      7 (2, 2) (fun _ => [])).2.2 = false :=
  (C10_zoom_bucket_nonpositive (LttbCache.new 100) 7 (5, 3) (2, 2)
    (fun _ => []) (fun _ => []) (by norm_num) (by norm_num)).2.2

/-! ## Adaptive downsampler state machine (src/perf/downsample.rs) -/

/-- Embedding of the `AdaptiveDownsampler` state
(src/perf/downsample.rs:6-9).  `settle_frames` is a `u8` in the source;
it only ever holds values in `[0, 10]`, so `ℕ` models it exactly. -/
structure AdaptiveDownsampler where
  is_interacting : Bool
  settle_frames : ℕ
deriving DecidableEq

/-- Constructor `AdaptiveDownsampler::new`. -/
def AdaptiveDownsampler.new : AdaptiveDownsampler := ⟨false, 0⟩

/-- Embedding of `AdaptiveDownsampler::nth_point_sample`
(src/perf/downsample.rs:47-53): keep every `step`-th point, where
`step = max(len / target, 1)`.  (For `target = 0` with non-empty data the
source's `len / target` panics; the claims about this function are
settled with `target ≥ 1`.) -/
def nth_point_sample (data : List (ℚ × ℚ)) (target : ℕ) : List (ℚ × ℚ) :=
  let step := max (data.length / target) 1
  (List.range data.length).filterMap (fun i => if i % step = 0 then data[i]? else none)

/-- Embedding of `AdaptiveDownsampler::downsample`
(src/perf/downsample.rs:20-44), returning the produced points together
with the successor state (the source mutates `self`). -/
def AdaptiveDownsampler.downsample (d : AdaptiveDownsampler) (data : List (ℚ × ℚ))
    (target : ℕ) (currently_dragging : Bool) :
    List (ℚ × ℚ) × AdaptiveDownsampler :=
  if data.length ≤ target then (data, d)
  else if currently_dragging then (nth_point_sample data target, ⟨true, 10⟩)
  else if 0 < d.settle_frames then
    (nth_point_sample data target, ⟨d.is_interacting, d.settle_frames - 1⟩)
  else (lttb_downsample data target, ⟨false, 0⟩)

/-- Embedding of `AdaptiveDownsampler::is_fast_mode`
(src/perf/downsample.rs:56-58). -/
def AdaptiveDownsampler.is_fast_mode (d : AdaptiveDownsampler) : Bool :=
  d.is_interacting || decide (0 < d.settle_frames)

/-- Embedding of `AdaptiveDownsampler::force_settle`
(src/perf/downsample.rs:61-64). -/
def AdaptiveDownsampler.force_settle : AdaptiveDownsampler → AdaptiveDownsampler :=
  fun _ => ⟨false, 0⟩

/-- C9 (amended). Provided the data is actually longer than the target
(and the target is positive), a dragging call enters `Interacting` with
the countdown reset to `10` (fast mode active, nth-point output); a
non-dragging call with a positive countdown decrements it and still
samples fast; a non-dragging call with countdown `0` and `target ≥ 2`
performs full LTTB and is settled (for `target = 1` with longer data the
settled branch would hit the `target - 2` usize underflow inside
`lttb_downsample`, so the source produces no normal result there and the
conjunct requires `2 ≤ target`).  However, any call with
`data.len() <= target` returns the input unchanged *without touching the
state* — so, contrary to the claim as stated, such a dragging call
neither enters `Interacting` nor resets the countdown. -/
theorem C9_adaptive_downsampler (d : AdaptiveDownsampler) (data : List (ℚ × ℚ))
    (target : ℕ) (hpos : 0 < target) (hlen : target < data.length) :
    ((d.downsample data target true).2 = ⟨true, 10⟩ ∧
      (d.downsample data target true).2.is_fast_mode = true ∧
      (d.downsample data target true).1 = nth_point_sample data target) ∧
    (0 < d.settle_frames →
      (d.downsample data target false).2 = ⟨d.is_interacting, d.settle_frames - 1⟩ ∧
      (d.downsample data target false).1 = nth_point_sample data target) ∧
    (d.settle_frames = 0 → 2 ≤ target →
      (d.downsample data target false).1 = lttb_downsample data target ∧
      (d.downsample data target false).2 = ⟨false, 0⟩) ∧
    (∀ (d' : AdaptiveDownsampler) (data' : List (ℚ × ℚ)) (t' : ℕ) (b : Bool),
      data'.length ≤ t' → d'.downsample data' t' b = (data', d')) := by
  have hguard : ¬data.length ≤ target := by omega
  refine ⟨?_, ?_, ?_, ?_⟩
  · rw [AdaptiveDownsampler.downsample, if_neg hguard, if_pos rfl]
    refine ⟨?_, ?_, ?_⟩ <;> first
      | trivial
      | simp [AdaptiveDownsampler.is_fast_mode]
  · intro hs
    rw [AdaptiveDownsampler.downsample, if_neg hguard]
    simp only [Bool.false_eq_true, if_false, if_pos hs]
    refine ⟨?_, ?_⟩ <;> trivial
  · intro hs _
    rw [AdaptiveDownsampler.downsample, if_neg hguard]
    simp only [Bool.false_eq_true, if_false, hs]
    refine ⟨?_, ?_⟩ <;> trivial
  · intro d' data' t' b hle
    rw [AdaptiveDownsampler.downsample, if_pos hle]

/-- C9 counterexample: with a settled downsampler and `data.len() <=
target`, a call with `currently_dragging = true` hits the early return:
the state stays `(false, 0)`, so the settle countdown is *not* reset to
`10` and `is_fast_mode()` is `false` immediately after the call, contrary
to the claim as stated. -/
theorem C9_counterexample_small_data :
    (AdaptiveDownsampler.new.downsample [(0, 0)] 5 true).2.is_fast_mode = false ∧
    (AdaptiveDownsampler.new.downsample [(0, 0)] 5 true).2.settle_frames ≠ 10 := by
  constructor
  · rfl
  · decide

/-- C9 witness: the amended theorem applied at state `(true, 3)` on two
points with target `1` (dragging reset and settle decrement), and at the
settled state on three points with target `2` (full-LTTB branch). -/
theorem C9_witness :
    ((⟨true, 3⟩ : AdaptiveDownsampler).downsample [(0, 0), (1, 1)] 1 true).2 =
      (⟨true, 10⟩ : AdaptiveDownsampler) ∧
    ((⟨true, 3⟩ : AdaptiveDownsampler).downsample [(0, 0), (1, 1)] 1 false).2 =
      (⟨true, 2⟩ : AdaptiveDownsampler) ∧
    ((⟨false, 0⟩ : AdaptiveDownsampler).downsample [(0, 0), (1, 1), (2, 2)] 2 false).1 =
      lttb_downsample [(0, 0), (1, 1), (2, 2)] 2 := by
  have h := C9_adaptive_downsampler ⟨true, 3⟩ [(0, 0), (1, 1)] 1 (by decide) (by decide)
  have h2 := C9_adaptive_downsampler ⟨false, 0⟩ [(0, 0), (1, 1), (2, 2)] 2
    (by decide) (by decide)
  exact ⟨h.1.1, (h.2.1 (by decide)).1, (h2.2.2.1 rfl (by decide)).1⟩

end PlotOxide
